import Mathlib

/-!
Verification of the quotemeta shell-quoting library.

The source function quotemeta_inner (src/src/lib.rs) takes a byte slice and
returns a String. We embed bytes as natural numbers (input bytes carry the
hypothesis c < 256, matching the Rust u8 type) and the output String as the
list of its bytes; every character the function emits is ASCII, so one output
character is one byte. Character codes used below: 36 is the dollar sign,
39 the single quote, 92 the backslash, 48..55 the octal digits 0..7.
-/

namespace Quotemeta

/-- Bytes matched by the first arm of the match in quotemeta_inner: the
characters + , - . / : = @ _ and the ranges 0-9, A-Z, a-z. -/
def isBareSafe (c : Nat) : Bool :=
  c == 43 || c == 44 || c == 45 || c == 46 || c == 47 ||
    (decide (48 ≤ c) && decide (c ≤ 57)) || c == 58 || c == 61 || c == 64 ||
    (decide (65 ≤ c) && decide (c ≤ 90)) || c == 95 ||
    (decide (97 ≤ c) && decide (c ≤ 122))

/-- Bytes matched by the second arm: 0 ..= 31 and 127 ..= 255. -/
def isControlOrHigh (c : Nat) : Bool :=
  decide (c ≤ 31) || (decide (127 ≤ c) && decide (c ≤ 255))

/-- Bytes matched by the third arm: the single quote (39) and the
backslash (92). -/
def isSpecialEscape (c : Nat) : Bool :=
  c == 39 || c == 92

/-- Bytes reaching the wildcard arm of the match: everything not caught by
the three arms before it. -/
def isNeedsSingleQuote (c : Nat) : Bool :=
  !(isBareSafe c || isControlOrHigh c || isSpecialEscape c)

/-- The three zero-padded octal digits emitted by format with the 03o
specifier for a byte value, as ASCII codes. -/
def octal3 (c : Nat) : List Nat :=
  [48 + c / 64 % 8, 48 + c / 8 % 8, 48 + c % 8]

/-- The bytes of the string fragment that the match inside quotemeta_inner
emits for one input byte, with the same arm precedence as the source. The
wildcard arm is only reached for bytes 32..126 outside the earlier arms, so
the UTF-8 encoding the Rust code produces there is the single byte itself. -/
def fragment (c : Nat) : List Nat :=
  if isBareSafe c then [c]
  else if isControlOrHigh c then 92 :: octal3 c
  else if isSpecialEscape c then [92, c]
  else [c]

/-- True exactly when the matched arm for this byte sets the c_quoted flag
in quotemeta_inner. -/
def setsCQuoted (c : Nat) : Bool :=
  !isBareSafe c && (isControlOrHigh c || isSpecialEscape c)

/-- One step of the iteration inside quotemeta_inner: the state is the pair
of flags (single_quoted, c_quoted) together with the output accumulated by
collect, and one input byte is consumed. -/
def quoteStep (acc : (Bool × Bool) × List Nat) (c : Nat) : (Bool × Bool) × List Nat :=
  if isBareSafe c then (acc.1, acc.2 ++ [c])
  else if isControlOrHigh c then ((acc.1.1, true), acc.2 ++ 92 :: octal3 c)
  else if isSpecialEscape c then ((acc.1.1, true), acc.2 ++ [92, c])
  else ((true, acc.1.2), acc.2 ++ [c])

/-- Embedding of quotemeta_inner from src/src/lib.rs: map every byte to its
fragment while accumulating the two flags, then wrap the collected string
according to the match on (c_quoted, single_quoted). -/
def quotemeta_inner (s : List Nat) : List Nat :=
  let r := s.foldl quoteStep ((false, false), [])
  if r.1.2 then 36 :: 39 :: (r.2 ++ [39])
  else if r.1.1 then 39 :: (r.2 ++ [39])
  else r.2

/-- Embedding of the public quotemeta entry point: on Unix the path
conversion is the identity on the underlying bytes, so it delegates to
quotemeta_inner unchanged. -/
def quotemeta (s : List Nat) : List Nat :=
  quotemeta_inner s

/-- Concatenation of the per-byte fragments of a byte sequence, in order. -/
def frags : List Nat → List Nat
  | [] => []
  | c :: cs => fragment c ++ frags cs

theorem quoteStep_eq (a : (Bool × Bool) × List Nat) (c : Nat) :
    quoteStep a c =
      ((a.1.1 || isNeedsSingleQuote c, a.1.2 || setsCQuoted c), a.2 ++ fragment c) := by
  rcases a with ⟨⟨sq, cq⟩, acc⟩
  unfold quoteStep fragment isNeedsSingleQuote setsCQuoted
  cases h1 : isBareSafe c <;> cases h2 : isControlOrHigh c <;>
    cases h3 : isSpecialEscape c <;> simp [h1, h2, h3]

theorem foldl_quoteStep (s : List Nat) (sq cq : Bool) (acc : List Nat) :
    s.foldl quoteStep ((sq, cq), acc) =
      ((sq || s.any isNeedsSingleQuote, cq || s.any setsCQuoted), acc ++ frags s) := by
  induction s generalizing sq cq acc with
  | nil => simp [frags]
  | cons c cs ih =>
    rw [List.foldl_cons, quoteStep_eq]
    rw [ih]
    simp [frags, Bool.or_assoc]

theorem quotemeta_inner_eq (s : List Nat) :
    quotemeta_inner s =
      if s.any setsCQuoted then 36 :: 39 :: (frags s ++ [39])
      else if s.any isNeedsSingleQuote then 39 :: (frags s ++ [39])
      else frags s := by
  unfold quotemeta_inner
  rw [foldl_quoteStep]
  simp

/-- True when the code is one of the ASCII octal digits 0..7. -/
def isOctDigit (c : Nat) : Bool :=
  decide (48 ≤ c) && decide (c ≤ 55)

/-- Modelled from the spec: the repository implements no unquoting
direction, but the spec defines the ANSI-C quoting dialect as supporting
backslash escape sequences inside the quotes, including 3-digit octal byte
escapes. This reads the body of such a quoted string back into bytes: a
backslash followed by an octal digit consumes exactly three octal digits
giving the byte they denote in base 8, a backslash followed by any other
character yields that character, and any other character yields itself. -/
def ansiUnescape : List Nat → Option (List Nat)
  | [] => some []
  | c :: rest =>
    if c = 92 then
      match rest with
      | [] => none
      | d1 :: rest1 =>
        if isOctDigit d1 then
          match rest1 with
          | d2 :: d3 :: rest2 =>
            if isOctDigit d2 && isOctDigit d3 then
              (ansiUnescape rest2).map
                (fun t => ((d1 - 48) * 64 + (d2 - 48) * 8 + (d3 - 48)) :: t)
            else none
          | _ => none
        else (ansiUnescape rest1).map (fun t => d1 :: t)
    else (ansiUnescape rest).map (fun t => c :: t)

/-- Modelled from the spec: a reference shell-unquoting function for the
two quoting syntaxes the spec names. A string of the form dollar, quote,
body, quote is read with ANSI-C escape processing of the body; a string of
the form quote, body, quote is read as the literal body; anything else is
read as the literal bytes themselves. -/
def shellUnquote (out : List Nat) : Option (List Nat) :=
  if out.take 2 = [36, 39] ∧ out.getLast? = some 39 ∧ 3 ≤ out.length then
    ansiUnescape ((out.drop 2).dropLast)
  else if out.take 1 = [39] ∧ out.getLast? = some 39 ∧ 2 ≤ out.length then
    some ((out.drop 1).dropLast)
  else some out

theorem ansiUnescape_cons_lit (c : Nat) (h92 : c ≠ 92) (rest : List Nat) :
    ansiUnescape (c :: rest) = (ansiUnescape rest).map (fun t => c :: t) := by
  rw [ansiUnescape.eq_def]
  simp [h92]

theorem ansiUnescape_octal (d1 d2 d3 : Nat) (h1 : isOctDigit d1 = true)
    (h2 : isOctDigit d2 = true) (h3 : isOctDigit d3 = true) (rest : List Nat) :
    ansiUnescape (92 :: d1 :: d2 :: d3 :: rest) =
      (ansiUnescape rest).map
        (fun t => ((d1 - 48) * 64 + (d2 - 48) * 8 + (d3 - 48)) :: t) := by
  rw [ansiUnescape.eq_def]
  simp [h1, h2, h3]

theorem ansiUnescape_escaped (c : Nat) (h : isOctDigit c = false) (rest : List Nat) :
    ansiUnescape (92 :: c :: rest) = (ansiUnescape rest).map (fun t => c :: t) := by
  rw [ansiUnescape.eq_def]
  simp [h]

theorem ansiUnescape_fragment (c : Nat) (h : c < 256) (rest : List Nat) :
    ansiUnescape (fragment c ++ rest) = (ansiUnescape rest).map (fun t => c :: t) := by
  unfold fragment
  cases hb : isBareSafe c with
  | true =>
    have h92 : c ≠ 92 := by
      simp [isBareSafe] at hb
      omega
    simpa using ansiUnescape_cons_lit c h92 rest
  | false =>
    cases hc : isControlOrHigh c with
    | true =>
      have e : (92 :: octal3 c) ++ rest =
          92 :: (48 + c / 64 % 8) :: (48 + c / 8 % 8) :: (48 + c % 8) :: rest := by
        simp [octal3]
      have ho1 : isOctDigit (48 + c / 64 % 8) = true := by
        simp [isOctDigit]; omega
      have ho2 : isOctDigit (48 + c / 8 % 8) = true := by
        simp [isOctDigit]; omega
      have ho3 : isOctDigit (48 + c % 8) = true := by
        simp [isOctDigit]; omega
      have hval : (48 + c / 64 % 8 - 48) * 64 + (48 + c / 8 % 8 - 48) * 8 +
          (48 + c % 8 - 48) = c := by
        omega
      simp only [hb, hc, Bool.false_eq_true, if_false, if_true, e]
      rw [ansiUnescape_octal _ _ _ ho1 ho2 ho3, hval]
    | false =>
      cases hs : isSpecialEscape c with
      | true =>
        have hcase : c = 39 ∨ c = 92 := by
          simp [isSpecialEscape] at hs
          omega
        have hoct : isOctDigit c = false := by
          rcases hcase with h39 | h92r <;> simp [isOctDigit, *]
        simp only [hb, hc, hs, Bool.false_eq_true, if_false, if_true]
        simpa using ansiUnescape_escaped c hoct rest
      | false =>
        have h92 : c ≠ 92 := by
          simp [isSpecialEscape] at hs
          omega
        simp only [hb, hc, hs, Bool.false_eq_true, if_false]
        simpa using ansiUnescape_cons_lit c h92 rest

theorem ansiUnescape_frags (s : List Nat) (h : ∀ c ∈ s, c < 256) :
    ansiUnescape (frags s) = some s := by
  induction s with
  | nil => simp [frags, ansiUnescape]
  | cons c cs ih =>
    have hc : c < 256 := h c (by simp)
    have hrest : ∀ x ∈ cs, x < 256 := fun x hx => h x (by simp [hx])
    show ansiUnescape (fragment c ++ frags cs) = some (c :: cs)
    rw [ansiUnescape_fragment c hc, ih hrest]
    rfl

theorem bareSafe_range (c : Nat) (h : isBareSafe c = true) :
    43 ≤ c ∧ c ≤ 122 ∧ c ≠ 92 := by
  simp [isBareSafe] at h
  omega

theorem fragment_lit (c : Nat) (h : setsCQuoted c = false) : fragment c = [c] := by
  unfold fragment
  cases hb : isBareSafe c with
  | true => simp
  | false =>
    simp [setsCQuoted, hb] at h
    simp [h.1, h.2]

theorem frags_lit (s : List Nat) (h : ∀ c ∈ s, setsCQuoted c = false) :
    frags s = s := by
  induction s with
  | nil => rfl
  | cons c cs ih =>
    show fragment c ++ frags cs = c :: cs
    rw [fragment_lit c (h c (by simp)), ih (fun x hx => h x (by simp [hx]))]
    rfl

theorem bare_of_flags (c : Nat) (h1 : setsCQuoted c = false)
    (h2 : isNeedsSingleQuote c = false) : isBareSafe c = true := by
  cases hb : isBareSafe c with
  | true => rfl
  | false =>
    simp [setsCQuoted, hb] at h1
    simp [isNeedsSingleQuote, hb, h1.1, h1.2] at h2

theorem shellUnquote_bare (s : List Nat) (h : ∀ c ∈ s, isBareSafe c = true) :
    shellUnquote s = some s := by
  cases s with
  | nil => decide
  | cons c t =>
    have hc := bareSafe_range c (h c (by simp))
    unfold shellUnquote
    rw [if_neg, if_neg]
    · rintro ⟨h1, -, -⟩
      simp [List.take] at h1
      omega
    · rintro ⟨h1, -, -⟩
      rcases t with - | ⟨d, t⟩
      · simp [List.take] at h1
      · simp [List.take] at h1
        omega

theorem shellUnquote_single (body : List Nat) :
    shellUnquote (39 :: (body ++ [39])) = some body := by
  have hlast : (39 :: (body ++ [39])).getLast? = some 39 := by
    rw [show (39 : Nat) :: (body ++ [39]) = (39 :: body) ++ [39] by simp]
    exact List.getLast?_concat _
  unfold shellUnquote
  rw [if_neg, if_pos]
  · simp [List.dropLast_concat]
  · refine ⟨by simp [List.take], hlast, by simp⟩
  · rintro ⟨h1, -, -⟩
    rcases body with - | ⟨d, t⟩ <;> simp [List.take] at h1

theorem shellUnquote_ansi (body : List Nat) :
    shellUnquote (36 :: 39 :: (body ++ [39])) = ansiUnescape body := by
  have hlast : (36 :: 39 :: (body ++ [39])).getLast? = some 39 := by
    rw [show (36 : Nat) :: 39 :: (body ++ [39]) = (36 :: 39 :: body) ++ [39] by simp]
    exact List.getLast?_concat _
  unfold shellUnquote
  rw [if_pos]
  · simp [List.dropLast_concat]
  · refine ⟨by simp [List.take], hlast, by simp⟩

/-- C1: unquoting the output of quotemeta with a reference shell-unquoting
function, supporting plain single-quote syntax and ANSI-C quoting with
octal and backslash escapes, reconstructs exactly the original bytes. -/
theorem quotemeta_roundtrip (s : List Nat) (h : ∀ c ∈ s, c < 256) :
    shellUnquote (quotemeta s) = some s := by
  unfold quotemeta
  rw [quotemeta_inner_eq]
  cases hcq : s.any setsCQuoted with
  | true =>
    simp only [hcq, if_true]
    rw [shellUnquote_ansi, ansiUnescape_frags s h]
  | false =>
    have hlit : ∀ c ∈ s, setsCQuoted c = false := by
      intro c hc
      have := (List.any_eq_false.mp hcq) c hc
      simpa using this
    have hfr : frags s = s := frags_lit s hlit
    cases hsq : s.any isNeedsSingleQuote with
    | true =>
      simp only [hcq, hsq, Bool.false_eq_true, if_false, if_true]
      rw [hfr, shellUnquote_single]
    | false =>
      have hbare : ∀ c ∈ s, isBareSafe c = true := by
        intro c hc
        have h2 := (List.any_eq_false.mp hsq) c hc
        exact bare_of_flags c (hlit c hc) (by simpa using h2)
      simp only [hcq, hsq, Bool.false_eq_true, if_false]
      rw [hfr, shellUnquote_bare s hbare]

/-- Concrete round-trip instance at the bytes of the test string isn + quote
+ t, discharging the byte-range hypothesis of the round-trip theorem. -/
theorem quotemeta_roundtrip_witness :
    (∀ c ∈ [105, 115, 110, 39, 116], c < 256) ∧
      shellUnquote (quotemeta [105, 115, 110, 39, 116]) = some [105, 115, 110, 39, 116] :=
  ⟨by decide, quotemeta_roundtrip [105, 115, 110, 39, 116] (by decide)⟩

example : quotemeta [] = [] := by decide

example : quotemeta [116, 101, 115, 116] = [116, 101, 115, 116] := by decide

example : quotemeta [72, 101, 108, 108, 111, 44, 32, 119, 111, 114, 108, 100, 33] =
    39 :: [72, 101, 108, 108, 111, 44, 32, 119, 111, 114, 108, 100, 33] ++ [39] := by decide

example : quotemeta [105, 115, 110, 39, 116] =
    [36, 39, 105, 115, 110, 92, 39, 116, 39] := by decide

example : quotemeta [105, 115, 110, 92, 116] =
    [36, 39, 105, 115, 110, 92, 92, 116, 39] := by decide

example : quotemeta [10, 51] = [36, 39, 92, 48, 49, 50, 51, 39] := by decide

example : quotemeta [194, 163] =
    [36, 39, 92, 51, 48, 50, 92, 50, 52, 51, 39] := by decide

example : quotemeta [163] = [36, 39, 92, 50, 52, 51, 39] := by decide

theorem cq_of_special (c : Nat) (h : isControlOrHigh c = true ∨ isSpecialEscape c = true) :
    setsCQuoted c = true := by
  have hb : isBareSafe c = false := by
    rcases h with h | h
    · simp [isControlOrHigh] at h
      simp [isBareSafe]
      omega
    · simp [isSpecialEscape] at h
      simp [isBareSafe]
      omega
  simp [setsCQuoted, hb]
  rcases h with h | h <;> simp [h]

/-- C2: an input with at least one Control-or-high-bit or Special-escape
byte yields output wrapped in ANSI-C quoting: it starts with the two bytes
dollar, quote, ends with a quote, and its first byte is never a plain
quote, whatever Needs-single-quote bytes are also present. -/
theorem quotemeta_precedence (s : List Nat)
    (h : ∃ c ∈ s, isControlOrHigh c = true ∨ isSpecialEscape c = true) :
    (quotemeta s).take 2 = [36, 39] ∧ (quotemeta s).getLast? = some 39 ∧
      (quotemeta s).head? = some 36 ∧ (quotemeta s).head? ≠ some 39 := by
  obtain ⟨c, hc, hcl⟩ := h
  have hany : s.any setsCQuoted = true :=
    List.any_eq_true.mpr ⟨c, hc, cq_of_special c hcl⟩
  unfold quotemeta
  rw [quotemeta_inner_eq]
  simp only [hany, if_true]
  refine ⟨by simp [List.take], ?_, by simp, by simp⟩
  rw [show (36 : Nat) :: 39 :: (frags s ++ [39]) = (36 :: 39 :: frags s) ++ [39] by simp]
  exact List.getLast?_concat _

/-- Concrete precedence instance: a newline byte together with a space, a
Needs-single-quote byte, still gets ANSI-C wrapping. -/
theorem quotemeta_precedence_witness :
    (∃ c ∈ [10, 32], isControlOrHigh c = true ∨ isSpecialEscape c = true) ∧
      ((quotemeta [10, 32]).take 2 = [36, 39] ∧
        (quotemeta [10, 32]).getLast? = some 39 ∧
        (quotemeta [10, 32]).head? = some 36 ∧
        (quotemeta [10, 32]).head? ≠ some 39) :=
  ⟨⟨10, by decide, by decide⟩, quotemeta_precedence [10, 32] ⟨10, by decide, by decide⟩⟩

theorem fragment_length_le (c : Nat) : (fragment c).length ≤ 4 := by
  unfold fragment
  split
  · simp
  · split
    · simp [octal3]
    · split <;> simp

theorem frags_length (s : List Nat) : (frags s).length ≤ 4 * s.length := by
  induction s with
  | nil => simp [frags]
  | cons c cs ih =>
    show (fragment c ++ frags cs).length ≤ 4 * (c :: cs).length
    have := fragment_length_le c
    simp only [List.length_append, List.length_cons]
    omega

/-- C3: quotemeta is total: every byte sequence, of any length and content,
produces an output, and that output is finite, of length at most four bytes
per input byte plus the three wrapping bytes. There is no error branch in
the embedding, which is a total computable function. -/
theorem quotemeta_total (s : List Nat) :
    ∃ t : List Nat, quotemeta s = t ∧ t.length ≤ 4 * s.length + 3 := by
  refine ⟨quotemeta s, rfl, ?_⟩
  have hfr := frags_length s
  unfold quotemeta
  rw [quotemeta_inner_eq]
  split
  · simp only [List.length_cons, List.length_append, List.length_nil]
    omega
  · split
    · simp only [List.length_cons, List.length_append, List.length_nil]
      omega
    · omega

theorem quotemeta_inner_bare (s : List Nat) (h : ∀ c ∈ s, isBareSafe c = true) :
    quotemeta_inner s = s := by
  rw [quotemeta_inner_eq]
  have h1 : s.any setsCQuoted = false := by
    apply List.any_eq_false.mpr
    intro c hc
    simp [setsCQuoted, h c hc]
  have h2 : s.any isNeedsSingleQuote = false := by
    apply List.any_eq_false.mpr
    intro c hc
    simp [isNeedsSingleQuote, h c hc]
  have h3 : frags s = s := frags_lit s (by
    intro c hc
    simp [setsCQuoted, h c hc])
  simp [h1, h2, h3]

/-- C4: on input made only of Bare-safe bytes the function is the identity,
with no quoting or escaping added; the empty input is the special case with
an empty output. -/
theorem quotemeta_bare_id (s : List Nat) (h : ∀ c ∈ s, isBareSafe c = true) :
    quotemeta s = s :=
  quotemeta_inner_bare s h

/-- Concrete identity instance at the bytes of the string test. -/
theorem quotemeta_bare_id_witness :
    (∀ c ∈ [116, 101, 115, 116], isBareSafe c = true) ∧
      quotemeta [116, 101, 115, 116] = [116, 101, 115, 116] :=
  ⟨by decide, quotemeta_bare_id [116, 101, 115, 116] (by decide)⟩

theorem ctrl_lt_256 (c : Nat) (h : isControlOrHigh c = true) : c < 256 := by
  simp [isControlOrHigh] at h
  omega

/-- C5: for a Control-or-high-bit byte the emitted fragment is a backslash
and exactly three octal digits, zero-padded, hence of length four; the
leading digit is at most the digit 3, so the rendered number lies in the
octal range 000 to 377, and the three digits denote the byte value. -/
theorem octal_escape_shape (c : Nat) (h : isControlOrHigh c = true) :
    (fragment c).length = 4 ∧
      ∃ d1 d2 d3, fragment c = [92, d1, d2, d3] ∧
        48 ≤ d1 ∧ d1 ≤ 51 ∧ 48 ≤ d2 ∧ d2 ≤ 55 ∧ 48 ≤ d3 ∧ d3 ≤ 55 ∧
        (d1 - 48) * 64 + (d2 - 48) * 8 + (d3 - 48) = c := by
  have hlt : c < 256 := ctrl_lt_256 c h
  have hb : isBareSafe c = false := by
    simp [isControlOrHigh] at h
    simp [isBareSafe]
    omega
  unfold fragment octal3
  rw [hb, h]
  simp only [Bool.false_eq_true, if_false, if_true]
  exact ⟨by simp, 48 + c / 64 % 8, 48 + c / 8 % 8, 48 + c % 8, by simp,
    by omega, by omega, by omega, by omega, by omega, by omega, by omega⟩

/-- Concrete octal instance: byte value 10 renders as backslash 012, the
four bytes 92, 48, 49, 50. -/
theorem octal_escape_shape_witness :
    isControlOrHigh 10 = true ∧ fragment 10 = [92, 48, 49, 50] ∧
      ((fragment 10).length = 4 ∧
        ∃ d1 d2 d3, fragment 10 = [92, d1, d2, d3] ∧
          48 ≤ d1 ∧ d1 ≤ 51 ∧ 48 ≤ d2 ∧ d2 ≤ 55 ∧ 48 ≤ d3 ∧ d3 ≤ 55 ∧
          (d1 - 48) * 64 + (d2 - 48) * 8 + (d3 - 48) = 10) :=
  ⟨by decide, by decide, octal_escape_shape 10 (by decide)⟩

set_option maxRecDepth 4096 in
/-- C6: the per-byte classification is total and exhaustive: every byte
value below 256 satisfies exactly one of the four class predicates taken
from the four match arms, so no byte is unclassified or doubly classified. -/
theorem byteClass_partition (c : Nat) (h : c < 256) :
    [isBareSafe c, isControlOrHigh c, isSpecialEscape c,
      isNeedsSingleQuote c].count true = 1 := by
  revert c
  decide

/-- Concrete partition instance at byte 63, a Needs-single-quote byte. -/
theorem byteClass_partition_witness :
    63 < 256 ∧
      [isBareSafe 63, isControlOrHigh 63, isSpecialEscape 63,
        isNeedsSingleQuote 63].count true = 1 :=
  ⟨by decide, byteClass_partition 63 (by decide)⟩

/-- C7: an input with at least one Needs-single-quote byte and no
Control-or-high-bit or Special-escape byte is wrapped in plain single
quotes with every input byte emitted literally in between. -/
theorem quotemeta_single_quote_wrap (s : List Nat)
    (h1 : ∃ c ∈ s, isNeedsSingleQuote c = true)
    (h2 : ∀ c ∈ s, isControlOrHigh c = false ∧ isSpecialEscape c = false) :
    quotemeta s = 39 :: (s ++ [39]) := by
  have hcq : s.any setsCQuoted = false := by
    apply List.any_eq_false.mpr
    intro c hc
    simp [setsCQuoted, (h2 c hc).1, (h2 c hc).2]
  have hsq : s.any isNeedsSingleQuote = true := by
    obtain ⟨c, hc, hnc⟩ := h1
    exact List.any_eq_true.mpr ⟨c, hc, hnc⟩
  have hfr : frags s = s := frags_lit s (by
    intro c hc
    simp [setsCQuoted, (h2 c hc).1, (h2 c hc).2])
  unfold quotemeta
  rw [quotemeta_inner_eq]
  simp only [hcq, hsq, Bool.false_eq_true, if_false, if_true, hfr]

/-- Concrete single-quote instance at the bytes of Hello comma space world
exclamation mark. -/
theorem quotemeta_single_quote_wrap_witness :
    (∃ c ∈ [72, 101, 108, 108, 111, 44, 32, 119, 111, 114, 108, 100, 33],
        isNeedsSingleQuote c = true) ∧
      (∀ c ∈ [72, 101, 108, 108, 111, 44, 32, 119, 111, 114, 108, 100, 33],
        isControlOrHigh c = false ∧ isSpecialEscape c = false) ∧
      quotemeta [72, 101, 108, 108, 111, 44, 32, 119, 111, 114, 108, 100, 33] =
        39 :: ([72, 101, 108, 108, 111, 44, 32, 119, 111, 114, 108, 100, 33] ++ [39]) :=
  ⟨⟨32, by decide, by decide⟩, by decide,
    quotemeta_single_quote_wrap
      [72, 101, 108, 108, 111, 44, 32, 119, 111, 114, 108, 100, 33]
      ⟨32, by decide, by decide⟩ (by decide)⟩

/-- C8: the map from a byte sequence to the concatenation of its per-byte
fragments is injective, because every fragment concatenation can be
re-split and decoded back to the original bytes. -/
theorem frags_injective (s t : List Nat) (hs : ∀ c ∈ s, c < 256)
    (ht : ∀ c ∈ t, c < 256) (heq : frags s = frags t) : s = t := by
  have h1 := ansiUnescape_frags s hs
  have h2 := ansiUnescape_frags t ht
  rw [heq, h2] at h1
  exact (Option.some.inj h1).symm

/-- Concrete injectivity instance with the bytes 0 and 65. -/
theorem frags_injective_witness :
    (∀ c ∈ [0, 65], c < 256) ∧ frags [0, 65] = frags [0, 65] ∧
      ([0, 65] : List Nat) = [0, 65] :=
  ⟨by decide, by decide,
    frags_injective [0, 65] [0, 65] (by decide) (by decide) (by decide)⟩

/-- C9: on a sequence of Bare-safe bytes quotemeta is idempotent: a second
application returns the first result unchanged. -/
theorem quotemeta_idempotent (s : List Nat) (h : ∀ c ∈ s, isBareSafe c = true) :
    quotemeta (quotemeta s) = quotemeta s := by
  have e : quotemeta s = s := quotemeta_inner_bare s h
  rw [e]
  exact e

/-- Concrete idempotence instance at the bytes of the string test. -/
theorem quotemeta_idempotent_witness :
    (∀ c ∈ [116, 101, 115, 116], isBareSafe c = true) ∧
      quotemeta (quotemeta [116, 101, 115, 116]) = quotemeta [116, 101, 115, 116] :=
  ⟨by decide, quotemeta_idempotent [116, 101, 115, 116] (by decide)⟩

set_option maxRecDepth 4096 in
theorem fragment_printable (c : Nat) (h : c < 256) :
    ∀ d ∈ fragment c, 32 ≤ d ∧ d ≤ 126 := by
  revert c
  decide

theorem frags_printable (s : List Nat) (h : ∀ c ∈ s, c < 256) :
    ∀ d ∈ frags s, 32 ≤ d ∧ d ≤ 126 := by
  induction s with
  | nil => simp [frags]
  | cons c cs ih =>
    intro d hd
    rcases List.mem_append.mp hd with h1 | h2
    · exact fragment_printable c (h c (by simp)) d h1
    · exact ih (fun x hx => h x (by simp [hx])) d h2

/-- C10: every byte of the output is a printable ASCII character, value 32
to 126: no control byte and no byte at or above 127 ever appears in the
output, whatever the input bytes were. -/
theorem quotemeta_printable (s : List Nat) (h : ∀ c ∈ s, c < 256) :
    ∀ d ∈ quotemeta s, 32 ≤ d ∧ d ≤ 126 := by
  have hfr := frags_printable s h
  unfold quotemeta
  rw [quotemeta_inner_eq]
  split
  · intro d hd
    simp only [List.mem_cons, List.mem_append, List.mem_singleton,
      List.not_mem_nil, or_false] at hd
    rcases hd with rfl | rfl | hd | rfl
    · omega
    · omega
    · exact hfr d hd
    · omega
  · split
    · intro d hd
      simp only [List.mem_cons, List.mem_append, List.mem_singleton,
        List.not_mem_nil, or_false] at hd
      rcases hd with rfl | hd | rfl
      · omega
      · exact hfr d hd
      · omega
    · exact hfr

/-- Concrete printability instance at the lone raw byte 163, which is not
valid UTF-8 on its own. -/
theorem quotemeta_printable_witness :
    (∀ c ∈ [163], c < 256) ∧ ∀ d ∈ quotemeta [163], 32 ≤ d ∧ d ≤ 126 :=
  ⟨by decide, quotemeta_printable [163] (by decide)⟩

end Quotemeta
